import Mathlib

/-!
Verification development for the pdb-alphamissense-annotator repository.

The Python sources are embedded shallowly:
* `pdb_utils.map_and_update_bfactors` (residue-map construction from
  alignment coordinate blocks and the per-residue B-factor update),
* `am_utils.calculate_average_pathogenicity` (per-position score means),
* `sequence_utils.align_sequences` (result-tuple construction around the
  pairwise aligner),
* `pdb_utils.modify_pdb_with_am_scores` (fixed-column line rewrite).

Machine floats of the source are modelled as rationals (`ℚ`), numpy NaN
entries as `Option ℚ` with `none` for NaN, Python dictionaries as functions
into `Option`, and Python exceptions as `none` results of `Option`-valued
functions.
-/

namespace PdbAM

/-- Residue identifier as returned by BioPython `Residue.get_id()`:
a `(hetfield, resseq, icode)` triple. -/
structure ResId where
  hetfield : String
  resseq : Int
  icode : String
deriving DecidableEq, Repr

/-- Python dictionary update `m[k] = v`, modelled on the lookup function. -/
def upd (m : ResId → Option Nat) (k : ResId) (v : Nat) : ResId → Option Nat :=
  fun r => if r = k then some v else m r

/-- Inner loop of the residue-map construction in
`pdb_utils.map_and_update_bfactors` (pdb_utils.py lines 143-147): for
`j = jstart, …, blen-1` insert
`residue_map[pdb_residues[pstart + j].get_id()] = astart + j + 1`.
`none` models the uncaught `IndexError` when `pstart + j` is out of range
of `pdb_residues`. -/
def insertBlockFrom (pdbResidues : List ResId) (astart pstart blen : Nat) :
    Nat → (ResId → Option Nat) → Option (ResId → Option Nat)
  | j, m =>
    if _h : j < blen then
      match pdbResidues[pstart + j]? with
      | none => none
      | some r => insertBlockFrom pdbResidues astart pstart blen (j + 1) (upd m r (astart + j + 1))
    else
      some m
termination_by j _ => blen - j
decreasing_by simp_wf; omega

/-- Outer loop of the residue-map construction (pdb_utils.py lines 134-147).
`alignment.coordinates` is a 2×k numpy matrix; it is modelled as the list of
its k columns `(afdb_coords[i], pdb_coords[i])`.  The Python loop walks
`i = 0, 2, 4, …`, reading `afdb_coords[i]`, `afdb_coords[i+1]` and
`pdb_coords[i]`; an odd number of columns would raise `IndexError`
(modelled `none`). -/
def buildResidueMap (pdbResidues : List ResId) :
    List (Nat × Nat) → (ResId → Option Nat) → Option (ResId → Option Nat)
  | (a0, p0) :: (a1, _) :: rest, m =>
    match insertBlockFrom pdbResidues a0 p0 (a1 - a0) 0 m with
    | none => none
    | some m2 => buildResidueMap pdbResidues rest m2
  | [_], _ => none
  | [], m => some m

/-- BioPython pairwise alignment object, restricted to the fields the
repository reads: `score`, `aligned[0]`, `aligned[1]` (per-side matched
block lists, as `(start, end)` pairs) and `coordinates` (the 2×k matrix,
as a list of columns). -/
structure BioAlignment where
  score : ℚ
  aligned0 : List (Nat × Nat)
  aligned1 : List (Nat × Nat)
  coordinates : List (Nat × Nat)
deriving DecidableEq, Repr

/-- Per-residue value resolution of the B-factor update loop
(pdb_utils.py lines 152-163): `score = None`; if the residue id is in the
map, `score = am_scores.get(afdb_position)`; the applied value is `score`
when not `None`, else `-1.00`. -/
def applyScore (rmap : ResId → Option Nat) (amScores : Nat → Option ℚ) (r : ResId) : ℚ :=
  match rmap r with
  | some pos =>
    match amScores pos with
    | some s => s
    | none => -1
  | none => -1

/-- Embedding of `pdb_utils.map_and_update_bfactors`.  Inputs: the full
residue-id list of the chain object (`chain_obj.get_residues()`), the
PPBuilder-rebuilt residue list, the optional alignment-result tuple for the
chain, and the aggregated-score dictionary.  The result pairs every chain
residue id with the B-factor written to all its atoms; `none` models the
two early returns (no PPBuilder residues / no alignment result) and the
uncaught `IndexError` of the map construction, in all of which no update
is produced. -/
def map_and_update_bfactors (chainResidues pdbResidues : List ResId)
    (resultTuple : Option (BioAlignment × List (Nat × Nat) × List (Nat × Nat)))
    (amScores : Nat → Option ℚ) : Option (List (ResId × ℚ)) :=
  if pdbResidues.isEmpty then none
  else
    match resultTuple with
    | none => none
    | some (al, _, _) =>
      match buildResidueMap pdbResidues al.coordinates (fun _ => none) with
      | none => none
      | some rmap => some (chainResidues.map (fun r => (r, applyScore rmap amScores r)))

/-- Rounding to 3 decimal places, as applied by `.round(3)` in
`am_utils.calculate_average_pathogenicity`.  (Float round-half-to-even
ties of the source are immaterial to the claims; rationals are used.) -/
def round3 (q : ℚ) : ℚ := (round (1000 * q) : ℤ) / 1000

/-- Lookup in the dictionary produced by
`groupby("residue_number")["pathogenicity_score"].mean().round(3).to_dict()`
(am_utils.py lines 128-133): positions that occur in the table map to the
rounded mean of their scores, other positions are absent. -/
def aggregatedScore (rows : List (Nat × ℚ)) (pos : Nat) : Option ℚ :=
  let g := (rows.filter (fun r => r.1 = pos)).map (fun r => r.2)
  if g.isEmpty then none else some (round3 (g.sum / g.length))

/-- Embedding of `am_utils.calculate_average_pathogenicity`.  The input
DataFrame is modelled as `Option` of a row list `(residue_number, score)`;
`none` input models `am_data is None`, `some []` models an empty frame.
The source returns `None` in both cases. -/
def calculate_average_pathogenicity (amData : Option (List (Nat × ℚ))) :
    Option (Nat → Option ℚ) :=
  match amData with
  | none => none
  | some rows => if rows.isEmpty then none else some (aggregatedScore rows)

/-- Embedding of `sequence_utils.align_sequences`.  The BioPython aligner
call is a parameter `alignFn` returning the (possibly empty) alignment
list; the guard, chain filtering and result-tuple construction follow the
source (sequence_utils.py lines 32-74).  Note lines 63-64 of the source
assign `best_alignment.aligned[0]` to both tuple components. -/
def align_sequences (alignFn : List Char → List Char → List BioAlignment)
    (pdbSequences : List (String × List Char)) (afdbSequence : List Char)
    (chainIds : List String) :
    List (String × (BioAlignment × List (Nat × Nat) × List (Nat × Nat))) :=
  if pdbSequences.isEmpty || afdbSequence.isEmpty then []
  else
    pdbSequences.filterMap (fun cp =>
      if cp.1 ∈ chainIds then
        match alignFn afdbSequence cp.2 with
        | [] => none
        | al :: _ => some (cp.1, (al, al.aligned0, al.aligned0))
      else none)

/-- Digit test for the characters `0`-`9`, with its numeric value. -/
def digitVal (c : Char) : Option Nat :=
  if '0' ≤ c ∧ c ≤ '9' then some (c.toNat - '0'.toNat) else none

/-- Value of a digit string, most significant first; `none` on a non-digit. -/
def digitsValAux : Nat → List Char → Option Nat
  | acc, [] => some acc
  | acc, c :: rest =>
    match digitVal c with
    | some d => digitsValAux (acc * 10 + d) rest
    | none => none

/-- Value of a non-empty all-digit string; `none` otherwise. -/
def digitsVal (cs : List Char) : Option Nat :=
  if cs.isEmpty then none else digitsValAux 0 cs

/-- Python `str.strip()`, restricted to the space character (the only
whitespace occurring in the fixed PDB columns). -/
def stripSpaces (cs : List Char) : List Char :=
  ((cs.dropWhile (fun c => c = ' ')).reverse.dropWhile (fun c => c = ' ')).reverse

/-- Python `int(s)` on a stripped string: optional sign followed by digits.
`none` models the `ValueError` raised on anything else. -/
def pythonInt (cs : List Char) : Option Int :=
  match stripSpaces cs with
  | '-' :: rest => (digitsVal rest).map (fun n => -(n : Int))
  | '+' :: rest => (digitsVal rest).map (fun n => (n : Int))
  | t => (digitsVal t).map (fun n => (n : Int))

/-- Decimal digit characters of `n`, most significant first. -/
def natToDigits (n : Nat) : List Char :=
  if _h : n < 10 then [Nat.digitChar n]
  else natToDigits (n / 10) ++ [Nat.digitChar (n % 10)]
termination_by n
decreasing_by simp_wf; exact Nat.div_lt_self (by omega) (by omega)

/-- Number of hundredths written by `f-string` formatting with `.2f`:
the score scaled by 100 and rounded.  (Float round-half-to-even ties of
the source are immaterial to the claims.) -/
def round2 (q : ℚ) : ℤ := round (100 * q)

/-- Digits of `f"x.yz"` for a non-negative number of hundredths. -/
def fmt2core (n : Nat) : List Char :=
  natToDigits (n / 100) ++ '.' :: [Nat.digitChar (n / 10 % 10), Nat.digitChar (n % 10)]

/-- Python `f"{score:.2f}"` (pdb_utils.py line 227), as a character list. -/
def fmt2 (q : ℚ) : List Char :=
  let m := round2 q
  if m < 0 then '-' :: fmt2core m.natAbs else fmt2core m.toNat

/-- The `while len(score_str) < 6: score_str = " " + score_str` loop
(pdb_utils.py lines 228-229): right-justify in a 6-character field. -/
def rightJustify6 (cs : List Char) : List Char :=
  List.replicate (6 - cs.length) ' ' ++ cs

/-- The six characters written into columns 61-66. -/
def scoreField (q : ℚ) : List Char := rightJustify6 (fmt2 q)

/-- Python slice `l[a:b]`. -/
def sliceCols (l : List Char) (a b : Nat) : List Char := (l.drop a).take (b - a)

/-- The rewritten atom line `line[:60] + score_str + line[66:]`
(pdb_utils.py line 230). -/
def modifyAtomLine (line : List Char) (q : ℚ) : List Char :=
  line.take 60 ++ scoreField q ++ line.drop 66

/-- Python `line.startswith(p)`. -/
def startsWith (p line : List Char) : Bool := line.take p.length = p

/-- numpy 1-d array indexing with a Python int: non-negative indices are
direct (the caller has already checked `i < len`), negative indices count
from the end, and indices below `-len` raise `IndexError` (modelled
`none`).  Array entries are `Option ℚ`, with `none` for NaN. -/
def numpyGet (scores : List (Option ℚ)) (i : Int) : Option (Option ℚ) :=
  if 0 ≤ i then scores.get? i.toNat
  else if 0 ≤ i + scores.length then scores.get? (i + scores.length).toNat
  else none

/-- Per-line body of the rewrite loop in
`pdb_utils.modify_pdb_with_am_scores` (pdb_utils.py lines 219-235).
`some out` is the line written for this input line; `none` models an
uncaught exception (unparseable residue-number field, or numpy
`IndexError`), which aborts the write. -/
def modify_pdb_line (scores : List (Option ℚ)) (line : List Char) : Option (List Char) :=
  if startsWith "ATOM".toList line || startsWith "HETATM".toList line then
    match pythonInt (sliceCols line 22 26) with
    | none => none
    | some rn =>
      if rn < scores.length then
        match numpyGet scores rn with
        | none => none
        | some none => some line
        | some (some q) => some (modifyAtomLine line q)
      else some line
  else some line

/-- Whole-file rewrite of `pdb_utils.modify_pdb_with_am_scores`: every
input line processed in order; `none` models an uncaught exception. -/
def modify_pdb_with_am_scores (scores : List (Option ℚ)) (lines : List (List Char)) :
    Option (List (List Char)) :=
  lines.mapM (modify_pdb_line scores)

/-- Unsigned part of a Python float literal: integer digits with an
optional dot and fraction digits. -/
def parseUnsignedFixed (u : List Char) : Option ℚ :=
  let ip := u.takeWhile Char.isDigit
  let rest := u.dropWhile Char.isDigit
  match rest with
  | [] => if ip.isEmpty then none else (digitsValAux 0 ip).map (fun n => (n : ℚ))
  | c :: fp =>
    if c = '.' then
      if fp.all Char.isDigit ∧ (¬ip.isEmpty ∨ ¬fp.isEmpty) then
        (digitsValAux 0 ip).bind (fun a =>
          (digitsValAux 0 fp).map (fun b => (a : ℚ) + (b : ℚ) / (10 : ℚ) ^ fp.length))
      else none
    else none

/-- Reading a score back, as `float(line[60:66].strip())` does in
`am_utils.extract_plddt_scores_from_url`: optional sign, integer digits,
optional dot and fraction digits. -/
def parseFixedFloat (cs : List Char) : Option ℚ :=
  match stripSpaces cs with
  | [] => none
  | c :: rest =>
    if c = '-' then (parseUnsignedFixed rest).map (fun q => -q)
    else if c = '+' then parseUnsignedFixed rest
    else parseUnsignedFixed (c :: rest)

end PdbAM

namespace AlignerModel

/-- Modelled from the spec: the PairwiseLocalAligner component
(spec section 4.2) is realised in the repository by the external
BioPython `Align.PairwiseAligner` library, whose code is not under `src/`.
One column of a local alignment: `both` consumes one symbol of each
sequence (match or mismatch), `del` consumes only from the first
(reference) sequence, `ins` consumes only from the second. -/
inductive AlignOp where
  | both : AlignOp
  | del : AlignOp
  | ins : AlignOp
deriving DecidableEq, Repr

/-- Modelled from the spec: a candidate local alignment — a start position
in each sequence and the column list. -/
structure LocalAlignment where
  i0 : Nat
  j0 : Nat
  ops : List AlignOp
deriving DecidableEq, Repr

/-- Number of `both` columns. -/
def countBoth : List AlignOp → Nat
  | [] => 0
  | .both :: rest => countBoth rest + 1
  | .del :: rest => countBoth rest
  | .ins :: rest => countBoth rest

/-- Number of `del` columns. -/
def countDel : List AlignOp → Nat
  | [] => 0
  | .del :: rest => countDel rest + 1
  | .both :: rest => countDel rest
  | .ins :: rest => countDel rest

/-- Number of `ins` columns. -/
def countIns : List AlignOp → Nat
  | [] => 0
  | .ins :: rest => countIns rest + 1
  | .both :: rest => countIns rest
  | .del :: rest => countIns rest

/-- Modelled from the spec: a local alignment is valid when the consumed
ranges fit inside both sequences. -/
def IsValidAlignment (s t : List Char) (al : LocalAlignment) : Prop :=
  al.i0 + countBoth al.ops + countDel al.ops ≤ s.length ∧
  al.j0 + countBoth al.ops + countIns al.ops ≤ t.length

/-- Modelled from the spec: substitution score of one `both` column under
the fixed configuration match = +1, mismatch = -100. -/
def matchScore (s t : List Char) (i j : Nat) : ℤ :=
  match s[i]?, t[j]? with
  | some a, some b => if a = b then 1 else -100
  | _, _ => -100

/-- Modelled from the spec: affine-gap score of a column list starting at
positions `(i, j)`, with gap-open = -10 for the first column of a gap run
and gap-extend = -1 for each further column. -/
def scoreFrom (s t : List Char) : Nat → Nat → Option AlignOp → List AlignOp → ℤ
  | _, _, _, [] => 0
  | i, j, _, .both :: rest => matchScore s t i j + scoreFrom s t (i + 1) (j + 1) (some .both) rest
  | i, j, prev, .del :: rest =>
    (if prev = some .del then (-1 : ℤ) else -10) + scoreFrom s t (i + 1) j (some .del) rest
  | i, j, prev, .ins :: rest =>
    (if prev = some .ins then (-1 : ℤ) else -10) + scoreFrom s t i (j + 1) (some .ins) rest

/-- Modelled from the spec: total score of a candidate local alignment. -/
def alignmentScore (s t : List Char) (al : LocalAlignment) : ℤ :=
  scoreFrom s t al.i0 al.j0 none al.ops

/-- Modelled from the spec: the maximal matched blocks of a column list,
as `(referenceStart, queryStart, length)` triples. -/
def matchedBlocks : Nat → Nat → List AlignOp → List (Nat × Nat × Nat)
  | i, j, .both :: rest =>
    match matchedBlocks (i + 1) (j + 1) rest with
    | (a, b, len) :: bs =>
      if a = i + 1 ∧ b = j + 1 then (i, j, len + 1) :: bs else (i, j, 1) :: (a, b, len) :: bs
    | [] => [(i, j, 1)]
  | i, j, .del :: rest => matchedBlocks (i + 1) j rest
  | i, j, .ins :: rest => matchedBlocks i (j + 1) rest
  | _, _, [] => []

/-- Modelled from the spec: matched blocks of a candidate alignment. -/
def alignmentBlocks (al : LocalAlignment) : List (Nat × Nat × Nat) :=
  matchedBlocks al.i0 al.j0 al.ops

end AlignerModel

namespace PdbAM

/-- Rounding to 3 decimals keeps a value of the unit interval inside it. -/
theorem round3_unit {q : ℚ} (h0 : 0 ≤ q) (h1 : q ≤ 1) : 0 ≤ round3 q ∧ round3 q ≤ 1 := by
  have hfloor : round (1000 * q) = ⌊1000 * q + 1 / 2⌋ := round_eq _
  have hlo : (0 : ℤ) ≤ round (1000 * q) := by
    rw [hfloor]
    apply Int.le_floor.mpr
    push_cast
    nlinarith
  have hhi : round (1000 * q) ≤ 1000 := by
    rw [hfloor]
    have : (⌊1000 * q + 1 / 2⌋ : ℤ) < 1001 := by
      apply Int.floor_lt.mpr
      push_cast
      nlinarith
    omega
  constructor
  · unfold round3
    positivity
  · unfold round3
    rw [div_le_one (by norm_num)]
    exact_mod_cast hhi

end PdbAM

/-- C2: for every non-empty variant table, score aggregation returns, for
each reference position that occurs, the arithmetic mean of the
pathogenicity scores sharing that position rounded to 3 decimal places,
and given scores in [0,1] every returned value lies in [0,1]. -/
theorem aggregate_mean_rounded_unit (rows : List (Nat × ℚ)) (hne : rows ≠ [])
    (hbound : ∀ r ∈ rows, 0 ≤ r.2 ∧ r.2 ≤ 1) :
    ∃ f, PdbAM.calculate_average_pathogenicity (some rows) = some f ∧
      (∀ pos : Nat, (∃ s, (pos, s) ∈ rows) →
        f pos = some (PdbAM.round3
          (((rows.filter (fun r => r.1 = pos)).map (fun r => r.2)).sum /
           ((rows.filter (fun r => r.1 = pos)).map (fun r => r.2)).length))) ∧
      (∀ pos v, f pos = some v → 0 ≤ v ∧ v ≤ 1) := by
  refine ⟨PdbAM.aggregatedScore rows, ?_, ?_, ?_⟩
  · simp [PdbAM.calculate_average_pathogenicity, List.isEmpty_iff, hne]
  · rintro pos ⟨s, hs⟩
    have hmem : (pos, s) ∈ rows.filter (fun r => r.1 = pos) :=
      List.mem_filter.mpr ⟨hs, by simp⟩
    have hsm : s ∈ (rows.filter (fun r => r.1 = pos)).map (fun r => r.2) :=
      List.mem_map.mpr ⟨(pos, s), hmem, rfl⟩
    have hne2 : (rows.filter (fun r => r.1 = pos)).map (fun r => r.2) ≠ [] :=
      List.ne_nil_of_mem hsm
    simp [PdbAM.aggregatedScore, List.isEmpty_iff, hne2]
  · intro pos v hv
    simp only [PdbAM.aggregatedScore] at hv
    by_cases hemp : ((rows.filter (fun r => r.1 = pos)).map (fun r => r.2)).isEmpty
    · rw [if_pos hemp] at hv
      cases hv
    · rw [if_neg hemp] at hv
      have hv2 := Option.some.inj hv
      have hglen : 0 < ((rows.filter (fun r => r.1 = pos)).map (fun r => r.2)).length := by
        apply List.length_pos.mpr
        intro hnil
        rw [hnil] at hemp
        exact hemp rfl
      have hgb : ∀ x ∈ (rows.filter (fun r => r.1 = pos)).map (fun r => r.2),
          0 ≤ x ∧ x ≤ 1 := by
        intro x hx
        rcases List.mem_map.mp hx with ⟨r, hr, hrx⟩
        have := hbound r (List.mem_of_mem_filter hr)
        rw [← hrx]
        exact this
      have hsum0 : 0 ≤ ((rows.filter (fun r => r.1 = pos)).map (fun r => r.2)).sum :=
        List.sum_nonneg (fun x hx => (hgb x hx).1)
      have hsum1 : ((rows.filter (fun r => r.1 = pos)).map (fun r => r.2)).sum ≤
          (((rows.filter (fun r => r.1 = pos)).map (fun r => r.2)).length : ℚ) := by
        have := List.sum_le_card_nsmul
          ((rows.filter (fun r => r.1 = pos)).map (fun r => r.2)) 1 (fun x hx => (hgb x hx).2)
        simpa using this
      have hmean0 : 0 ≤ ((rows.filter (fun r => r.1 = pos)).map (fun r => r.2)).sum /
          (((rows.filter (fun r => r.1 = pos)).map (fun r => r.2)).length : ℚ) := by positivity
      have hmean1 : ((rows.filter (fun r => r.1 = pos)).map (fun r => r.2)).sum /
          (((rows.filter (fun r => r.1 = pos)).map (fun r => r.2)).length : ℚ) ≤ 1 := by
        rw [div_le_one (by exact_mod_cast hglen)]
        exact hsum1
      rw [← hv2]
      exact PdbAM.round3_unit hmean0 hmean1

/-- C2 witness: spec scenario 3 — rows at position 10 with scores
0.2, 0.4, 0.9 satisfy the hypotheses of `aggregate_mean_rounded_unit`. -/
theorem aggregate_mean_rounded_unit_witness :
    ∃ f, PdbAM.calculate_average_pathogenicity
        (some [(10, 2 / 10), (10, 4 / 10), (10, 9 / 10)]) = some f ∧
      (∀ pos : Nat, (∃ s, (pos, s) ∈ ([(10, 2 / 10), (10, 4 / 10), (10, 9 / 10)] : List (Nat × ℚ))) →
        f pos = some (PdbAM.round3
          (((([(10, 2 / 10), (10, 4 / 10), (10, 9 / 10)] : List (Nat × ℚ)).filter (fun r => r.1 = pos)).map (fun r => r.2)).sum /
           (((([(10, 2 / 10), (10, 4 / 10), (10, 9 / 10)] : List (Nat × ℚ)).filter (fun r => r.1 = pos)).map (fun r => r.2)).length)))) ∧
      (∀ pos v, f pos = some v → 0 ≤ v ∧ v ≤ 1) :=
  aggregate_mean_rounded_unit [(10, 2 / 10), (10, 4 / 10), (10, 9 / 10)]
    (by decide) (by norm_num)

/-- C6 counterexample: on an empty variant table the score aggregation
returns no mapping at all (`None` in the source), refuting the claim that
it returns an empty mapping. -/
theorem calc_avg_empty_no_mapping :
    (PdbAM.calculate_average_pathogenicity (some [])).isSome = false := rfl

/-- C6 (amended): on an empty variant table (or no table at all) the score
aggregation returns `None` — no mapping — after logging a warning; this is
a normal return, not a raised error, and callers that check for `None` can
fall back to the universal default. -/
theorem calc_avg_empty_input_none (d : Option (List (Nat × ℚ)))
    (h : d = none ∨ d = some []) : PdbAM.calculate_average_pathogenicity d = none := by
  rcases h with h | h <;> rw [h] <;> rfl

/-- C6 witness: the amended theorem applied to the empty variant table. -/
theorem calc_avg_empty_input_none_witness :
    PdbAM.calculate_average_pathogenicity (some []) = none :=
  calc_avg_empty_input_none (some []) (Or.inr rfl)

/-- C7 counterexample: with no structure sequences at all, the alignment
operation returns normally with an empty result dictionary; it does not
fail with an `EmptySequenceError` (no such error exists in the code). -/
theorem align_sequences_empty_no_error :
    PdbAM.align_sequences (fun _ _ => []) [] "MKVL".toList ["A"] = [] := rfl

/-- C7 (amended): when the structure-sequence dictionary is empty or the
reference sequence is empty, `align_sequences` logs a warning and returns
an empty result dictionary; it neither crashes nor raises. -/
theorem align_sequences_empty_input (alignFn : List Char → List Char → List PdbAM.BioAlignment)
    (pdbSequences : List (String × List Char)) (afdbSequence : List Char)
    (chainIds : List String) (h : pdbSequences = [] ∨ afdbSequence = []) :
    PdbAM.align_sequences alignFn pdbSequences afdbSequence chainIds = [] := by
  rcases h with h | h <;> simp [PdbAM.align_sequences, h]

/-- C7 witness: the amended theorem applied to an empty reference
sequence with a non-empty structure-sequence dictionary. -/
theorem align_sequences_empty_input_witness :
    PdbAM.align_sequences (fun _ _ => []) [("A", "MKVL".toList)] [] ["A"] = [] :=
  align_sequences_empty_input (fun _ _ => []) [("A", "MKVL".toList)] [] ["A"] (Or.inr rfl)

namespace PdbAM

/-- Alignment of reference "MKVLA" against structure "MKLA" (deletion of
"V"), as BioPython reports it: reference-side blocks [0,2) and [3,5),
structure-side blocks [0,2) and [2,4). -/
def mkvlaAlignment : BioAlignment :=
  ⟨4, [(0, 2), (3, 5)], [(0, 2), (2, 4)], [(0, 0), (2, 2), (3, 2), (5, 4)]⟩

end PdbAM

/-- C4: at the "MKVLA" vs "MKLA" alignment, whose two sides have distinct
block coordinates, `align_sequences` stores `aligned[0]` (the
reference-side segmentation) in both components of the result tuple
(sequence_utils.py lines 63-64), so the tuple does not carry the structure
side's own aligned representation. -/
theorem align_tuple_reuses_reference_side :
    PdbAM.align_sequences (fun _ _ => [PdbAM.mkvlaAlignment])
        [("A", "MKLA".toList)] "MKVLA".toList ["A"] =
      [("A", (PdbAM.mkvlaAlignment, PdbAM.mkvlaAlignment.aligned0,
        PdbAM.mkvlaAlignment.aligned0))] ∧
    PdbAM.mkvlaAlignment.aligned0 ≠ PdbAM.mkvlaAlignment.aligned1 :=
  ⟨rfl, by decide⟩

namespace PdbAM

/-- Induction principle matching the two-columns-at-a-time recursion of
`buildResidueMap`. -/
def twoStepInduction {motive : List (Nat × Nat) → Prop} (hnil : motive [])
    (hsingle : ∀ x, motive [x])
    (hcons2 : ∀ x y rest, motive rest → motive (x :: y :: rest)) :
    ∀ l, motive l
  | [] => hnil
  | [x] => hsingle x
  | x :: y :: rest => hcons2 x y rest (twoStepInduction hnil hsingle hcons2 rest)

/-- The coordinate-block list read by the Python loop: for each pair of
columns `(afdb_coords[i], pdb_coords[i])`, `(afdb_coords[i+1], _)`, the
triple `(afdb_start, pdb_start, block_length)`. -/
def blocksOf : List (Nat × Nat) → List (Nat × Nat × Nat)
  | (a0, p0) :: (a1, _) :: rest => (a0, p0, a1 - a0) :: blocksOf rest
  | _ => []

/-- The data-model invariant that each matched block is a pair of
equal-length ranges (spec section 3, "Alignment"): the reference-side and
structure-side extents of every column pair agree, and the column count is
even. -/
def BlockLensEq : List (Nat × Nat) → Prop
  | (a0, p0) :: (a1, p1) :: rest => a1 - a0 = p1 - p0 ∧ BlockLensEq rest
  | [_] => False
  | [] => True

/-- Blocks strictly ordered and mutually disjoint in both coordinate
spaces (spec section 3), with equal-length paired ranges, all bounded
below by `(la, lp)`. -/
def BlocksWFFrom : Nat → Nat → List (Nat × Nat) → Prop
  | la, lp, (a0, p0) :: (a1, p1) :: rest =>
    la ≤ a0 ∧ lp ≤ p0 ∧ a0 ≤ a1 ∧ p0 ≤ p1 ∧ a1 - a0 = p1 - p0 ∧ BlocksWFFrom a1 p1 rest
  | _, _, [_] => False
  | _, _, [] => True

/-- A structure-sequence index covered by some block of the coordinate
list. -/
def CoveredIdx (coords : List (Nat × Nat)) (idx : Nat) : Prop :=
  ∃ a p b j, (a, p, b) ∈ blocksOf coords ∧ j < b ∧ idx = p + j

/-- Well-separated coordinates have equal block lengths. -/
theorem blocksWFFrom_lensEq :
    ∀ coords la lp, BlocksWFFrom la lp coords → BlockLensEq coords := by
  intro coords
  induction coords using twoStepInduction with
  | hnil => intro la lp _; trivial
  | hsingle x => intro la lp h; exact absurd h (by simp [BlocksWFFrom])
  | hcons2 x y rest ih =>
    rcases x with ⟨a0, p0⟩
    rcases y with ⟨a1, p1⟩
    intro la lp h
    rcases h with ⟨_, _, _, _, hlen, hrest⟩
    exact ⟨hlen, ih a1 p1 hrest⟩

/-- Every block of a well-separated coordinate list lies above the lower
bounds. -/
theorem blocksOf_lb :
    ∀ coords la lp a p b, BlocksWFFrom la lp coords →
      (a, p, b) ∈ blocksOf coords → la ≤ a ∧ lp ≤ p := by
  intro coords
  induction coords using twoStepInduction with
  | hnil => intro la lp a p b _ hm; cases hm
  | hsingle x => intro la lp a p b h _; exact absurd h (by simp [BlocksWFFrom])
  | hcons2 x y rest ih =>
    rcases x with ⟨a0, p0⟩
    rcases y with ⟨a1, p1⟩
    intro la lp a p b h hm
    rcases h with ⟨hla, hlp, ha01, hp01, _, hrest⟩
    rcases List.mem_cons.mp hm with hm | hm
    · injection hm with h1 h2
      injection h2 with h2 h3
      omega
    · have := ih a1 p1 a p b hrest hm
      omega

/-- Step equation of `insertBlockFrom` while `j < blen`. -/
theorem insertBlockFrom_step (P : List ResId) (a p blen j : Nat) (m : ResId → Option Nat)
    (h : j < blen) : insertBlockFrom P a p blen j m =
      match P[p + j]? with
      | none => none
      | some r => insertBlockFrom P a p blen (j + 1) (upd m r (a + j + 1)) := by
  conv_lhs => rw [insertBlockFrom]
  rw [dif_pos h]

/-- Stop equation of `insertBlockFrom` once `j` reaches `blen`. -/
theorem insertBlockFrom_stop (P : List ResId) (a p blen j : Nat) (m : ResId → Option Nat)
    (h : ¬j < blen) : insertBlockFrom P a p blen j m = some m := by
  conv_lhs => rw [insertBlockFrom]
  rw [dif_neg h]

/-- `insertBlockFrom` performs no out-of-range access when the block fits
inside the residue list. -/
theorem insertBlockFrom_isSome (P : List ResId) (a p blen : Nat)
    (hfit : p + blen ≤ P.length) :
    ∀ j m, (insertBlockFrom P a p blen j m).isSome := by
  intro j m
  induction j, m using insertBlockFrom.induct P a p blen with
  | case1 j m hj hnone =>
    have := List.getElem?_eq_none_iff.mp hnone
    omega
  | case2 j m hj r hget ih =>
    rw [insertBlockFrom_step P a p blen j m hj, hget]
    exact ih
  | case3 j m hj =>
    rw [insertBlockFrom_stop P a p blen j m hj]
    rfl

/-- A key not hit by any remaining insertion keeps its old value. -/
theorem insertBlockFrom_notin (P : List ResId) (a p blen : Nat) (r : ResId) :
    ∀ j m m2, insertBlockFrom P a p blen j m = some m2 →
      (∀ j2, j ≤ j2 → j2 < blen → P[p + j2]? ≠ some r) → m2 r = m r := by
  intro j m
  induction j, m using insertBlockFrom.induct P a p blen with
  | case1 j m hj hnone =>
    intro m2 hrun _
    rw [insertBlockFrom_step P a p blen j m hj, hnone] at hrun
    cases hrun
  | case2 j m hj r0 hget ih =>
    intro m2 hrun havoid
    rw [insertBlockFrom_step P a p blen j m hj, hget] at hrun
    have h1 := ih m2 hrun (fun j2 h2 h3 => havoid j2 (by omega) h3)
    rw [h1]
    unfold upd
    have hne : r ≠ r0 := fun he => havoid j le_rfl hj (he ▸ hget)
    rw [if_neg hne]
  | case3 j m hj =>
    intro m2 hrun _
    rw [insertBlockFrom_stop P a p blen j m hj] at hrun
    cases hrun
    rfl

/-- The residue at offset `j2` of the block receives reference position
`a + j2 + 1` (distinct residue ids assumed, as PPBuilder guarantees). -/
theorem insertBlockFrom_mem (P : List ResId) (a p blen : Nat) (hnd : P.Nodup) (r : ResId) :
    ∀ j m m2, insertBlockFrom P a p blen j m = some m2 →
      ∀ j2, j ≤ j2 → j2 < blen → P[p + j2]? = some r → m2 r = some (a + j2 + 1) := by
  intro j m
  induction j, m using insertBlockFrom.induct P a p blen with
  | case1 j m hj hnone =>
    intro m2 hrun
    rw [insertBlockFrom_step P a p blen j m hj, hnone] at hrun
    cases hrun
  | case2 j m hj r0 hget ih =>
    intro m2 hrun j2 hle hlt hget2
    rw [insertBlockFrom_step P a p blen j m hj, hget] at hrun
    by_cases he : j2 = j
    · subst he
      rw [hget] at hget2
      have hr : r0 = r := Option.some.inj hget2
      subst hr
      obtain ⟨hjlen, -⟩ := List.getElem?_eq_some.mp hget
      have hnotin : ∀ j3, j2 + 1 ≤ j3 → j3 < blen → P[p + j3]? ≠ some r0 := by
        intro j3 h3 _ hc
        have := List.getElem?_inj hjlen hnd (hget.trans hc.symm)
        omega
      have := insertBlockFrom_notin P a p blen r0 (j2 + 1) (upd m r0 (a + j2 + 1)) m2 hrun hnotin
      rw [this]
      unfold upd
      rw [if_pos rfl]
    · exact ih m2 hrun j2 (by omega) hlt hget2
  | case3 j m hj =>
    intro m2 _ j2 hle hlt _
    omega

/-- Every binding of the result map is an old binding or comes from one
insertion of this block. -/
theorem insertBlockFrom_domain (P : List ResId) (a p blen : Nat) (r : ResId) (v : Nat) :
    ∀ j m m2, insertBlockFrom P a p blen j m = some m2 → m2 r = some v →
      m r = some v ∨ ∃ j2, j ≤ j2 ∧ j2 < blen ∧ P[p + j2]? = some r ∧ v = a + j2 + 1 := by
  intro j m
  induction j, m using insertBlockFrom.induct P a p blen with
  | case1 j m hj hnone =>
    intro m2 hrun
    rw [insertBlockFrom_step P a p blen j m hj, hnone] at hrun
    cases hrun
  | case2 j m hj r0 hget ih =>
    intro m2 hrun hv
    rw [insertBlockFrom_step P a p blen j m hj, hget] at hrun
    rcases ih m2 hrun hv with h | ⟨j2, h1, h2, h3, h4⟩
    · unfold upd at h
      by_cases he : r = r0
      · subst he
        rw [if_pos rfl] at h
        right
        exact ⟨j, le_rfl, hj, hget, (Option.some.inj h).symm⟩
      · rw [if_neg he] at h
        left
        exact h
    · right
      exact ⟨j2, by omega, h2, h3, h4⟩
  | case3 j m hj =>
    intro m2 hrun hv
    rw [insertBlockFrom_stop P a p blen j m hj] at hrun
    cases hrun
    left
    exact hv

/-- The residue-map construction performs no out-of-range access when all
structure-side coordinates are bounded by the residue-list length and the
paired ranges have equal lengths. -/
theorem buildResidueMap_isSome (P : List ResId) :
    ∀ coords m, BlockLensEq coords → (∀ pr ∈ coords, pr.2 ≤ P.length) →
      (buildResidueMap P coords m).isSome := by
  intro coords
  induction coords using twoStepInduction with
  | hnil => intro m _ _; rfl
  | hsingle x => intro m h _; exact absurd h (by simp [BlockLensEq])
  | hcons2 x y rest ih =>
    rcases x with ⟨a0, p0⟩
    rcases y with ⟨a1, p1⟩
    intro m hlens hrange
    rcases hlens with ⟨hlen, hrest⟩
    have hp0 : p0 ≤ P.length := hrange (a0, p0) (by simp)
    have hp1 : p1 ≤ P.length := hrange (a1, p1) (by simp)
    have hfit : p0 + (a1 - a0) ≤ P.length := by omega
    have hsome := insertBlockFrom_isSome P a0 p0 (a1 - a0) hfit 0 m
    obtain ⟨m1, hm1⟩ := Option.isSome_iff_exists.mp hsome
    simp only [buildResidueMap]
    rw [hm1]
    exact ih m1 hrest (fun pr hpr => hrange pr (by simp [hpr]))

/-- A residue id not covered by any block keeps its initial (absent)
binding. -/
theorem buildResidueMap_preserve (P : List ResId) (r : ResId) :
    ∀ coords m m2, buildResidueMap P coords m = some m2 →
      (∀ idx, CoveredIdx coords idx → P[idx]? ≠ some r) → m2 r = m r := by
  intro coords
  induction coords using twoStepInduction with
  | hnil =>
    intro m m2 hrun _
    cases hrun
    rfl
  | hsingle x =>
    intro m m2 hrun _
    cases hrun
  | hcons2 x y rest ih =>
    rcases x with ⟨a0, p0⟩
    rcases y with ⟨a1, p1⟩
    intro m m2 hrun havoid
    simp only [buildResidueMap] at hrun
    cases hins : insertBlockFrom P a0 p0 (a1 - a0) 0 m with
    | none => rw [hins] at hrun; cases hrun
    | some m1 =>
      rw [hins] at hrun
      have h1 : m1 r = m r := by
        apply insertBlockFrom_notin P a0 p0 (a1 - a0) r 0 m m1 hins
        intro j2 _ hj2
        apply havoid
        exact ⟨a0, p0, a1 - a0, j2, by simp [blocksOf], hj2, rfl⟩
      have h2 : m2 r = m1 r := by
        apply ih m1 m2 hrun
        intro idx hcov
        apply havoid
        rcases hcov with ⟨a, p, b, j, hm, hj, hidx⟩
        exact ⟨a, p, b, j, by simp [blocksOf, hm], hj, hidx⟩
      rw [h2, h1]

/-- Block-offset mapping property of the constructed residue map: the
residue at offset `j` of a block starting at `(a, p)` is sent to reference
position `a + j + 1`. -/
theorem buildResidueMap_mem (P : List ResId) (hnd : P.Nodup) :
    ∀ coords la lp m m2, BlocksWFFrom la lp coords →
      buildResidueMap P coords m = some m2 →
      ∀ a p b, (a, p, b) ∈ blocksOf coords → ∀ j, j < b → ∀ r, P[p + j]? = some r →
        m2 r = some (a + j + 1) := by
  intro coords
  induction coords using twoStepInduction with
  | hnil => intro la lp m m2 _ _ a p b hm; cases hm
  | hsingle x => intro la lp m m2 h; exact absurd h (by simp [BlocksWFFrom])
  | hcons2 x y rest ih =>
    rcases x with ⟨a0, p0⟩
    rcases y with ⟨a1, p1⟩
    intro la lp m m2 hwf hrun a p b hm j hj r hget
    rcases hwf with ⟨hla, hlp, ha01, hp01, hlen, hwfrest⟩
    simp only [buildResidueMap] at hrun
    cases hins : insertBlockFrom P a0 p0 (a1 - a0) 0 m with
    | none => rw [hins] at hrun; cases hrun
    | some m1 =>
      rw [hins] at hrun
      rcases List.mem_cons.mp hm with hhead | htail
      · injection hhead with e1 e2
        injection e2 with f2 f3
        have hm1 : m1 r = some (a0 + j + 1) :=
          insertBlockFrom_mem P a0 p0 (a1 - a0) hnd r 0 m m1 hins j (Nat.zero_le j)
            (by omega) (by rw [← f2]; exact hget)
        have hm2 : m2 r = m1 r := by
          apply buildResidueMap_preserve P r rest m1 m2 hrun
          intro idx hcov hc
          rcases hcov with ⟨a2, p2, b2, j2, hmem2, hj2, hidx⟩
          have hlb := blocksOf_lb rest a1 p1 a2 p2 b2 hwfrest hmem2
          obtain ⟨hjlen, -⟩ := List.getElem?_eq_some.mp hget
          have heq := List.getElem?_inj hjlen hnd (hget.trans hc.symm)
          omega
        rw [hm2, hm1, e1]
      · exact ih a1 p1 m1 m2 hwfrest hrun a p b htail j hj r hget

/-- Every binding of the constructed residue map comes from a block
offset (or the initial map). -/
theorem buildResidueMap_domain (P : List ResId) (r : ResId) (v : Nat) :
    ∀ coords m m2, buildResidueMap P coords m = some m2 → m2 r = some v →
      m r = some v ∨
        ∃ a p b j, (a, p, b) ∈ blocksOf coords ∧ j < b ∧ P[p + j]? = some r ∧
          v = a + j + 1 := by
  intro coords
  induction coords using twoStepInduction with
  | hnil =>
    intro m m2 hrun hv
    cases hrun
    left
    exact hv
  | hsingle x =>
    intro m m2 hrun
    cases hrun
  | hcons2 x y rest ih =>
    rcases x with ⟨a0, p0⟩
    rcases y with ⟨a1, p1⟩
    intro m m2 hrun hv
    simp only [buildResidueMap] at hrun
    cases hins : insertBlockFrom P a0 p0 (a1 - a0) 0 m with
    | none => rw [hins] at hrun; cases hrun
    | some m1 =>
      rw [hins] at hrun
      rcases ih m1 m2 hrun hv with h | ⟨a, p, b, j, hmem, hj, hget, hval⟩
      · rcases insertBlockFrom_domain P a0 p0 (a1 - a0) r v 0 m m1 hins h with
          h0 | ⟨j2, _, hj2, hget2, hval2⟩
        · left
          exact h0
        · right
          exact ⟨a0, p0, a1 - a0, j2, by simp [blocksOf], hj2, hget2, hval2⟩
      · right
        exact ⟨a, p, b, j, by simp [blocksOf, hmem], hj, hget, hval⟩

/-- Two block offsets of a well-separated coordinate list that agree on
the reference position agree on the structure index. -/
theorem blocks_pos_det :
    ∀ coords la lp, BlocksWFFrom la lp coords →
      ∀ a1 p1 b1 a2 p2 b2 j1 j2,
        (a1, p1, b1) ∈ blocksOf coords → (a2, p2, b2) ∈ blocksOf coords →
        j1 < b1 → j2 < b2 → a1 + j1 = a2 + j2 → p1 + j1 = p2 + j2 := by
  intro coords
  induction coords using twoStepInduction with
  | hnil => intro la lp _ a1 p1 b1 a2 p2 b2 j1 j2 hm; cases hm
  | hsingle x => intro la lp h; exact absurd h (by simp [BlocksWFFrom])
  | hcons2 x y rest ih =>
    rcases x with ⟨a0, p0⟩
    rcases y with ⟨a1c, p1c⟩
    intro la lp hwf a1 p1 b1 a2 p2 b2 j1 j2 hm1 hm2 hj1 hj2 heq
    rcases hwf with ⟨hla, hlp, ha01, hp01, hlen, hwfrest⟩
    rcases List.mem_cons.mp hm1 with hh1 | ht1 <;>
      rcases List.mem_cons.mp hm2 with hh2 | ht2
    · injection hh1 with e1 e2
      injection e2 with e2 e3
      injection hh2 with f1 f2
      injection f2 with f2 f3
      omega
    · injection hh1 with e1 e2
      injection e2 with e2 e3
      have := blocksOf_lb rest a1c p1c a2 p2 b2 hwfrest ht2
      omega
    · injection hh2 with f1 f2
      injection f2 with f2 f3
      have := blocksOf_lb rest a1c p1c a1 p1 b1 hwfrest ht1
      omega
    · exact ih a1c p1c hwfrest a1 p1 b1 a2 p2 b2 j1 j2 ht1 ht2 hj1 hj2 heq

end PdbAM

/-- C3: for well-separated (strictly increasing, disjoint, equal-length)
alignment blocks, the residue map sends the structure residue at offset
`j` of a block starting at `(referenceStart, structureStart)` to reference
position `referenceStart + j + 1`; the map is injective and contains no
residue lying outside every block. -/
theorem residue_map_offsets_injective_covered (P : List PdbAM.ResId)
    (coords : List (Nat × Nat)) (hnd : P.Nodup)
    (hwf : PdbAM.BlocksWFFrom 0 0 coords)
    (hrange : ∀ pr ∈ coords, pr.2 ≤ P.length) :
    ∃ m, PdbAM.buildResidueMap P coords (fun _ => none) = some m ∧
      (∀ a p b, (a, p, b) ∈ PdbAM.blocksOf coords →
        ∀ j, j < b → ∀ r, P[p + j]? = some r → m r = some (a + j + 1)) ∧
      (∀ r1 r2 pos, m r1 = some pos → m r2 = some pos → r1 = r2) ∧
      (∀ r, (m r).isSome →
        ∃ a p b j, (a, p, b) ∈ PdbAM.blocksOf coords ∧ j < b ∧ P[p + j]? = some r) := by
  have hlens := PdbAM.blocksWFFrom_lensEq coords 0 0 hwf
  have hsome := PdbAM.buildResidueMap_isSome P coords (fun _ => none) hlens hrange
  obtain ⟨m, hm⟩ := Option.isSome_iff_exists.mp hsome
  refine ⟨m, hm, ?_, ?_, ?_⟩
  · intro a p b hmem j hj r hget
    exact PdbAM.buildResidueMap_mem P hnd coords 0 0 (fun _ => none) m hwf hm
      a p b hmem j hj r hget
  · intro r1 r2 pos h1 h2
    rcases PdbAM.buildResidueMap_domain P r1 pos coords (fun _ => none) m hm h1 with
      h | ⟨a1, p1, b1, j1, hm1, hj1, hg1, hv1⟩
    · cases h
    rcases PdbAM.buildResidueMap_domain P r2 pos coords (fun _ => none) m hm h2 with
      h | ⟨a2, p2, b2, j2, hm2, hj2, hg2, hv2⟩
    · cases h
    have hpos : a1 + j1 = a2 + j2 := by omega
    have hpd := PdbAM.blocks_pos_det coords 0 0 hwf a1 p1 b1 a2 p2 b2 j1 j2
      hm1 hm2 hj1 hj2 hpos
    rw [hpd] at hg1
    rw [hg1] at hg2
    exact Option.some.inj hg2
  · intro r hsome2
    obtain ⟨pos, hpos⟩ := Option.isSome_iff_exists.mp hsome2
    rcases PdbAM.buildResidueMap_domain P r pos coords (fun _ => none) m hm hpos with
      h | ⟨a, p, b, j, hmem, hj, hg, _⟩
    · cases h
    exact ⟨a, p, b, j, hmem, hj, hg⟩

/-- C3 witness: the "MKVLA"/"MKLA" coordinate blocks over a four-residue
chain satisfy the hypotheses of `residue_map_offsets_injective_covered`. -/
theorem residue_map_offsets_injective_covered_witness :
    ∃ m, PdbAM.buildResidueMap
        [⟨" ", 1, " "⟩, ⟨" ", 2, " "⟩, ⟨" ", 3, " "⟩, ⟨" ", 4, " "⟩]
        [(0, 0), (2, 2), (3, 2), (5, 4)] (fun _ => none) = some m ∧
      (∀ a p b, (a, p, b) ∈ PdbAM.blocksOf [(0, 0), (2, 2), (3, 2), (5, 4)] →
        ∀ j, j < b → ∀ r,
          ([⟨" ", 1, " "⟩, ⟨" ", 2, " "⟩, ⟨" ", 3, " "⟩, ⟨" ", 4, " "⟩] :
            List PdbAM.ResId)[p + j]? = some r → m r = some (a + j + 1)) ∧
      (∀ r1 r2 pos, m r1 = some pos → m r2 = some pos → r1 = r2) ∧
      (∀ r, (m r).isSome →
        ∃ a p b j, (a, p, b) ∈ PdbAM.blocksOf [(0, 0), (2, 2), (3, 2), (5, 4)] ∧
          j < b ∧
          ([⟨" ", 1, " "⟩, ⟨" ", 2, " "⟩, ⟨" ", 3, " "⟩, ⟨" ", 4, " "⟩] :
            List PdbAM.ResId)[p + j]? = some r) :=
  residue_map_offsets_injective_covered
    [⟨" ", 1, " "⟩, ⟨" ", 2, " "⟩, ⟨" ", 3, " "⟩, ⟨" ", 4, " "⟩]
    [(0, 0), (2, 2), (3, 2), (5, 4)] (by decide)
    (by simp [PdbAM.BlocksWFFrom]) (by decide)

/-- C9: the residue-map construction indexes the PPBuilder-rebuilt residue
list with the alignment's structure-side block coordinates without a
bounds check; when all structure-side coordinates lie below the length of
that list (and the paired ranges have equal lengths, as alignment blocks
do), every index access is in range — the out-of-range failure (`none`)
is unreachable. -/
theorem bfactor_update_access_in_range (P : List PdbAM.ResId)
    (coords : List (Nat × Nat)) (hlens : PdbAM.BlockLensEq coords)
    (hrange : ∀ pr ∈ coords, pr.2 < P.length) :
    (PdbAM.buildResidueMap P coords (fun _ => none)).isSome :=
  PdbAM.buildResidueMap_isSome P coords (fun _ => none) hlens
    (fun pr hpr => le_of_lt (hrange pr hpr))

/-- C9 witness: a two-block coordinate list whose structure-side
coordinates all lie below the residue-list length. -/
theorem bfactor_update_access_in_range_witness :
    (PdbAM.buildResidueMap
      [⟨" ", 1, " "⟩, ⟨" ", 2, " "⟩, ⟨" ", 3, " "⟩, ⟨" ", 4, " "⟩]
      [(0, 0), (2, 2)] (fun _ => none)).isSome :=
  bfactor_update_access_in_range
    [⟨" ", 1, " "⟩, ⟨" ", 2, " "⟩, ⟨" ", 3, " "⟩, ⟨" ", 4, " "⟩]
    [(0, 0), (2, 2)] (by simp [PdbAM.BlockLensEq]) (by decide)

/-- C1: for a chain with an alignment result and a non-empty PPBuilder
residue list (with in-range, equal-length blocks), the B-factor update
assigns exactly one value to every residue identifier of the chain: the
aggregated score of its mapped reference position when mapped and present,
and exactly -1.00 otherwise; no residue is left unassigned. -/
theorem bfactor_transfer_total (chainRes P : List PdbAM.ResId)
    (tup : PdbAM.BioAlignment × List (Nat × Nat) × List (Nat × Nat))
    (amScores : Nat → Option ℚ) (hP : P ≠ [])
    (hlens : PdbAM.BlockLensEq tup.1.coordinates)
    (hrange : ∀ pr ∈ tup.1.coordinates, pr.2 ≤ P.length) :
    ∃ rmap out,
      PdbAM.buildResidueMap P tup.1.coordinates (fun _ => none) = some rmap ∧
      PdbAM.map_and_update_bfactors chainRes P (some tup) amScores = some out ∧
      out.length = chainRes.length ∧
      ∀ k, k < chainRes.length → ∃ r, chainRes[k]? = some r ∧
        ((∃ pos s, rmap r = some pos ∧ amScores pos = some s ∧ out[k]? = some (r, s)) ∨
         ((rmap r = none ∨ ∃ pos, rmap r = some pos ∧ amScores pos = none) ∧
          out[k]? = some (r, -1))) := by
  obtain ⟨al, x1, x2⟩ := tup
  have hsome := PdbAM.buildResidueMap_isSome P al.coordinates (fun _ => none) hlens hrange
  obtain ⟨rmap, hrm⟩ := Option.isSome_iff_exists.mp hsome
  have hPe : P.isEmpty = false := by simp [List.isEmpty_iff, hP]
  refine ⟨rmap, chainRes.map (fun r => (r, PdbAM.applyScore rmap amScores r)), hrm, ?_,
    by simp, ?_⟩
  · simp only [PdbAM.map_and_update_bfactors, hPe, Bool.false_eq_true, if_false]
    rw [hrm]
  · intro k hk
    have hr : chainRes[k]? = some chainRes[k] := List.getElem?_eq_getElem hk
    refine ⟨chainRes[k], hr, ?_⟩
    have hout : (chainRes.map (fun r => (r, PdbAM.applyScore rmap amScores r)))[k]? =
        some (chainRes[k], PdbAM.applyScore rmap amScores chainRes[k]) := by
      rw [List.getElem?_map, hr]
      rfl
    cases hrm2 : rmap chainRes[k] with
    | none =>
      right
      refine ⟨Or.inl rfl, ?_⟩
      rw [hout]
      simp [PdbAM.applyScore, hrm2]
    | some pos =>
      cases hsc : amScores pos with
      | none =>
        right
        refine ⟨Or.inr ⟨pos, rfl, hsc⟩, ?_⟩
        rw [hout]
        simp [PdbAM.applyScore, hrm2, hsc]
      | some s =>
        left
        refine ⟨pos, s, rfl, hsc, ?_⟩
        rw [hout]
        simp [PdbAM.applyScore, hrm2, hsc]

/-- C1 witness: a two-residue PPBuilder list, a chain with an extra
(hetero) residue, one full-length block and a score present only at
reference position 1. -/
theorem bfactor_transfer_total_witness :
    ∃ rmap out,
      PdbAM.buildResidueMap [⟨" ", 1, " "⟩, ⟨" ", 2, " "⟩]
        (PdbAM.BioAlignment.mk 2 [] [] [(0, 0), (2, 2)],
          ([] : List (Nat × Nat)), ([] : List (Nat × Nat))).1.coordinates
        (fun _ => none) = some rmap ∧
      PdbAM.map_and_update_bfactors
        [⟨" ", 1, " "⟩, ⟨" ", 2, " "⟩, ⟨"H_HOH", 101, " "⟩]
        [⟨" ", 1, " "⟩, ⟨" ", 2, " "⟩]
        (some (PdbAM.BioAlignment.mk 2 [] [] [(0, 0), (2, 2)],
          ([] : List (Nat × Nat)), ([] : List (Nat × Nat))))
        (fun pos => if pos = 1 then some (9 / 10) else none) = some out ∧
      out.length =
        ([⟨" ", 1, " "⟩, ⟨" ", 2, " "⟩, ⟨"H_HOH", 101, " "⟩] :
          List PdbAM.ResId).length ∧
      ∀ k, k < ([⟨" ", 1, " "⟩, ⟨" ", 2, " "⟩, ⟨"H_HOH", 101, " "⟩] :
          List PdbAM.ResId).length →
        ∃ r, ([⟨" ", 1, " "⟩, ⟨" ", 2, " "⟩, ⟨"H_HOH", 101, " "⟩] :
            List PdbAM.ResId)[k]? = some r ∧
          ((∃ pos s, rmap r = some pos ∧
              (fun pos => if pos = 1 then some ((9 : ℚ) / 10) else none) pos = some s ∧
              out[k]? = some (r, s)) ∨
           ((rmap r = none ∨ ∃ pos, rmap r = some pos ∧
              (fun pos => if pos = 1 then some ((9 : ℚ) / 10) else none) pos = none) ∧
            out[k]? = some (r, -1))) :=
  bfactor_transfer_total
    [⟨" ", 1, " "⟩, ⟨" ", 2, " "⟩, ⟨"H_HOH", 101, " "⟩]
    [⟨" ", 1, " "⟩, ⟨" ", 2, " "⟩]
    (PdbAM.BioAlignment.mk 2 [] [] [(0, 0), (2, 2)],
      ([] : List (Nat × Nat)), ([] : List (Nat × Nat)))
    (fun pos => if pos = 1 then some (9 / 10) else none)
    (by decide) (by simp [PdbAM.BlockLensEq]) (by decide)

namespace AlignerModel

/-- Aligning a position of a sequence with itself scores +1. -/
theorem matchScore_self (s : List Char) (i : Nat) (hi : i < s.length) :
    matchScore s s i i = 1 := by
  unfold matchScore
  obtain ⟨c, hc⟩ : ∃ c, s[i]? = some c :=
    ⟨s[i], List.getElem?_eq_getElem hi⟩
  rw [hc]
  simp

/-- A substitution column scores at most +1. -/
theorem matchScore_le_one (s t : List Char) (i j : Nat) : matchScore s t i j ≤ 1 := by
  unfold matchScore
  rcases s[i]? with _ | a
  · rcases t[j]? with _ | b <;> norm_num
  · rcases t[j]? with _ | b
    · norm_num
    · split <;> (split <;> norm_num)

/-- Score of a pure diagonal run over identical sequences. -/
theorem scoreFrom_replicate_both (s : List Char) :
    ∀ k i prev, i + k ≤ s.length →
      scoreFrom s s i i prev (List.replicate k .both) = k := by
  intro k
  induction k with
  | zero => intro i prev _; rfl
  | succ k ih =>
    intro i prev hik
    rw [List.replicate_succ]
    show matchScore s s i i + scoreFrom s s (i + 1) (i + 1) (some .both)
      (List.replicate k .both) = (k + 1 : ℤ)
    rw [matchScore_self s i (by omega), ih (i + 1) (some .both) (by omega)]
    omega

/-- Any column contributes at most +1, and only `both` columns can be
positive: the score is at most the number of `both` columns. -/
theorem scoreFrom_le_countBoth (s t : List Char) :
    ∀ ops i j prev, scoreFrom s t i j prev ops ≤ countBoth ops := by
  intro ops
  induction ops with
  | nil => intro i j prev; simp [scoreFrom, countBoth]
  | cons op rest ih =>
    intro i j prev
    cases op with
    | both =>
      show matchScore s t i j + scoreFrom s t (i + 1) (j + 1) (some .both) rest ≤
        (countBoth rest + 1 : ℤ)
      have h1 := matchScore_le_one s t i j
      have h2 := ih (i + 1) (j + 1) (some .both)
      omega
    | del =>
      show (if prev = some .del then (-1 : ℤ) else -10) +
        scoreFrom s t (i + 1) j (some .del) rest ≤ (countBoth rest : ℤ)
      have h2 := ih (i + 1) j (some .del)
      split <;> omega
    | ins =>
      show (if prev = some .ins then (-1 : ℤ) else -10) +
        scoreFrom s t i (j + 1) (some .ins) rest ≤ (countBoth rest : ℤ)
      have h2 := ih i (j + 1) (some .ins)
      split <;> omega

/-- The three column counts partition the column list. -/
theorem count_partition : ∀ ops : List AlignOp,
    countBoth ops + countDel ops + countIns ops = ops.length := by
  intro ops
  induction ops with
  | nil => rfl
  | cons op rest ih => cases op <;> simp [countBoth, countDel, countIns] <;> omega

/-- `countBoth` of a diagonal run. -/
theorem countBoth_replicate (k : Nat) : countBoth (List.replicate k .both) = k := by
  induction k with
  | zero => rfl
  | succ k ih => rw [List.replicate_succ]; show countBoth (List.replicate k .both) + 1 = k + 1; omega

/-- A column list consisting only of `both` columns is a replicate. -/
theorem countBoth_eq_length (ops : List AlignOp) (h : countBoth ops = ops.length) :
    ops = List.replicate ops.length .both := by
  induction ops with
  | nil => rfl
  | cons op rest ih =>
    have hle : countBoth rest ≤ rest.length := by
      have := count_partition rest
      omega
    cases op with
    | both =>
      have : countBoth rest = rest.length := by
        have hc : countBoth (.both :: rest) = countBoth rest + 1 := rfl
        simp only [List.length_cons] at h
        omega
      rw [List.length_cons, List.replicate_succ]
      rw [ih this]
      simp
    | del =>
      have hc : countBoth (.del :: rest) = countBoth rest := rfl
      simp only [List.length_cons] at h
      omega
    | ins =>
      have hc : countBoth (.ins :: rest) = countBoth rest := rfl
      simp only [List.length_cons] at h
      omega

/-- Matched blocks of a non-empty diagonal run: one block. -/
theorem matchedBlocks_replicate (k : Nat) :
    ∀ i j, matchedBlocks i j (List.replicate (k + 1) .both) = [(i, j, k + 1)] := by
  induction k with
  | zero => intro i j; rfl
  | succ k ih =>
    intro i j
    rw [List.replicate_succ]
    show (match matchedBlocks (i + 1) (j + 1) (List.replicate (k + 1) .both) with
      | (a, b, len) :: bs =>
        if a = i + 1 ∧ b = j + 1 then (i, j, len + 1) :: bs
        else (i, j, 1) :: (a, b, len) :: bs
      | [] => [(i, j, 1)]) = [(i, j, k + 1 + 1)]
    rw [ih (i + 1) (j + 1)]
    simp

end AlignerModel

/-- C5 (PairwiseLocalAligner modelled from the spec, section 4.2; the
aligner is the external BioPython library, not part of `src/`): over the
fixed scoring configuration (match +1, mismatch -100, gap-open -10,
gap-extend -1, local mode), aligning a non-empty sequence with an
identical copy of itself: the full diagonal alignment is valid and scores
the sequence length, no valid local alignment scores more, and every
optimal one is the full diagonal — exactly one matched block spanning
the full length of both sequences. -/
theorem aligner_identical_full_block (s : List Char) (hne : s ≠ []) :
    AlignerModel.IsValidAlignment s s ⟨0, 0, List.replicate s.length .both⟩ ∧
    AlignerModel.alignmentScore s s ⟨0, 0, List.replicate s.length .both⟩ = s.length ∧
    (∀ al, AlignerModel.IsValidAlignment s s al →
      AlignerModel.alignmentScore s s al ≤ s.length) ∧
    (∀ al, AlignerModel.IsValidAlignment s s al →
      AlignerModel.alignmentScore s s al = s.length →
      al.i0 = 0 ∧ al.j0 = 0 ∧ al.ops = List.replicate s.length .both ∧
      AlignerModel.alignmentBlocks al = [(0, 0, s.length)]) := by
  have hcnt := AlignerModel.countBoth_replicate s.length
  have hpart := AlignerModel.count_partition (List.replicate s.length .both)
  have hrl : (List.replicate s.length AlignerModel.AlignOp.both).length = s.length := by
    simp
  refine ⟨?_, ?_, ?_, ?_⟩
  · simp only [AlignerModel.IsValidAlignment]
    constructor <;> omega
  · exact AlignerModel.scoreFrom_replicate_both s s.length 0 none (by omega)
  · intro al hval
    have h1 := AlignerModel.scoreFrom_le_countBoth s s al.ops al.i0 al.j0 none
    rcases hval with ⟨hv1, _⟩
    have h2 : AlignerModel.countBoth al.ops ≤ s.length := by omega
    calc AlignerModel.alignmentScore s s al ≤ AlignerModel.countBoth al.ops := h1
    _ ≤ (s.length : ℤ) := by exact_mod_cast h2
  · intro al hval hscore
    have h1 := AlignerModel.scoreFrom_le_countBoth s s al.ops al.i0 al.j0 none
    rcases hval with ⟨hv1, hv2⟩
    have hscore2 : AlignerModel.scoreFrom s s al.i0 al.j0 none al.ops = (s.length : ℤ) :=
      hscore
    have hcb : AlignerModel.countBoth al.ops = s.length := by omega
    have hi0 : al.i0 = 0 := by omega
    have hj0 : al.j0 = 0 := by omega
    have hpart2 := AlignerModel.count_partition al.ops
    have hlen : al.ops.length = s.length := by omega
    have hrep : al.ops = List.replicate al.ops.length .both :=
      AlignerModel.countBoth_eq_length al.ops (by omega)
    rw [hlen] at hrep
    refine ⟨hi0, hj0, hrep, ?_⟩
    obtain ⟨k, hk⟩ : ∃ k, s.length = k + 1 := by
      cases hsl : s.length with
      | zero => exact absurd (List.length_eq_zero.mp hsl) hne
      | succ k => exact ⟨k, rfl⟩
    rw [AlignerModel.alignmentBlocks, hi0, hj0, hrep, hk]
    exact AlignerModel.matchedBlocks_replicate k 0 0

/-- C5 witness: the sequence "MKVL" (spec scenario 1) is non-empty; its
self-alignment by the full diagonal is valid and scores 4. -/
theorem aligner_identical_full_block_witness :
    AlignerModel.IsValidAlignment "MKVL".toList "MKVL".toList
      ⟨0, 0, List.replicate "MKVL".toList.length .both⟩ ∧
    AlignerModel.alignmentScore "MKVL".toList "MKVL".toList
      ⟨0, 0, List.replicate "MKVL".toList.length .both⟩ = "MKVL".toList.length :=
  ⟨(aligner_identical_full_block "MKVL".toList (by decide)).1,
   (aligner_identical_full_block "MKVL".toList (by decide)).2.1⟩

namespace PdbAM

/-- Two-decimal rounding of a unit-interval score lies in [0, 100]
hundredths. -/
theorem round2_unit {q : ℚ} (h0 : 0 ≤ q) (h1 : q ≤ 1) :
    0 ≤ round2 q ∧ round2 q ≤ 100 := by
  unfold round2
  have hfloor : round (100 * q) = ⌊100 * q + 1 / 2⌋ := round_eq _
  constructor
  · rw [hfloor]
    apply Int.le_floor.mpr
    push_cast
    nlinarith
  · rw [hfloor]
    have : (⌊100 * q + 1 / 2⌋ : ℤ) < 101 := by
      apply Int.floor_lt.mpr
      push_cast
      nlinarith
    omega

/-- Character facts about a single decimal digit. -/
theorem digitChar_facts (d : Nat) (h : d < 10) :
    (Nat.digitChar d).isDigit = true ∧ Nat.digitChar d ≠ ' ' ∧
    Nat.digitChar d ≠ '.' ∧ Nat.digitChar d ≠ '-' ∧ Nat.digitChar d ≠ '+' ∧
    digitVal (Nat.digitChar d) = some d := by
  interval_cases d <;> exact ⟨rfl, by decide, by decide, by decide, by decide, rfl⟩

/-- One-digit case of `natToDigits`. -/
theorem natToDigits_single (n : Nat) (h : n < 10) :
    natToDigits n = [Nat.digitChar n] := by
  conv_lhs => rw [natToDigits]
  rw [dif_pos h]

/-- Shape of the 2-decimal formatting of a unit-interval score. -/
theorem fmt2_unit {q : ℚ} (h0 : 0 ≤ q) (h1 : q ≤ 1) :
    fmt2 q = [Nat.digitChar ((round2 q).toNat / 100), '.',
      Nat.digitChar ((round2 q).toNat / 10 % 10), Nat.digitChar ((round2 q).toNat % 10)] := by
  obtain ⟨hr0, hr1⟩ := round2_unit h0 h1
  unfold fmt2
  rw [if_neg (by omega)]
  unfold fmt2core
  rw [natToDigits_single ((round2 q).toNat / 100) (by omega)]
  rfl

/-- Shape of the six characters written into columns 61-66 for a
unit-interval score: right-justified, exactly two decimal digits. -/
theorem scoreField_unit {q : ℚ} (h0 : 0 ≤ q) (h1 : q ≤ 1) :
    scoreField q = [' ', ' ', Nat.digitChar ((round2 q).toNat / 100), '.',
      Nat.digitChar ((round2 q).toNat / 10 % 10), Nat.digitChar ((round2 q).toNat % 10)] := by
  unfold scoreField rightJustify6
  rw [fmt2_unit h0 h1]
  rfl

/-- Length of the written score field. -/
theorem scoreField_length_unit {q : ℚ} (h0 : 0 ≤ q) (h1 : q ≤ 1) :
    (scoreField q).length = 6 := by
  rw [scoreField_unit h0 h1]
  rfl

end PdbAM

namespace PdbAM

/-- Reading back the written score field reproduces the score rounded to
2 decimals. -/
theorem parse_scoreField {q : ℚ} (h0 : 0 ≤ q) (h1 : q ≤ 1) :
    parseFixedFloat (scoreField q) = some (((round2 q : ℤ) : ℚ) / 100) := by
  obtain ⟨hr0, hr1⟩ := round2_unit h0 h1
  set n : Nat := (round2 q).toNat with hn
  have hn100 : n ≤ 100 := by omega
  obtain ⟨hd1dig, hd1sp, hd1dot, hd1m, hd1p, hd1val⟩ := digitChar_facts (n / 100) (by omega)
  obtain ⟨hd2dig, hd2sp, hd2dot, hd2m, hd2p, hd2val⟩ :=
    digitChar_facts (n / 10 % 10) (Nat.mod_lt _ (by omega))
  obtain ⟨hd3dig, hd3sp, hd3dot, hd3m, hd3p, hd3val⟩ :=
    digitChar_facts (n % 10) (Nat.mod_lt _ (by omega))
  have hdotdig : ('.' : Char).isDigit = false := by decide
  rw [scoreField_unit h0 h1]
  have hstrip : stripSpaces [' ', ' ', Nat.digitChar (n / 100), '.',
      Nat.digitChar (n / 10 % 10), Nat.digitChar (n % 10)] =
      [Nat.digitChar (n / 100), '.', Nat.digitChar (n / 10 % 10), Nat.digitChar (n % 10)] := by
    unfold stripSpaces
    simp [List.dropWhile_cons, hd1sp, hd3sp]
  have hred : parseFixedFloat [' ', ' ', Nat.digitChar (n / 100), '.',
      Nat.digitChar (n / 10 % 10), Nat.digitChar (n % 10)] =
      parseUnsignedFixed [Nat.digitChar (n / 100), '.',
        Nat.digitChar (n / 10 % 10), Nat.digitChar (n % 10)] := by
    unfold parseFixedFloat
    rw [hstrip]
    show (if Nat.digitChar (n / 100) = '-' then
        (parseUnsignedFixed ['.', Nat.digitChar (n / 10 % 10), Nat.digitChar (n % 10)]).map
          (fun q => -q)
      else if Nat.digitChar (n / 100) = '+' then
        parseUnsignedFixed ['.', Nat.digitChar (n / 10 % 10), Nat.digitChar (n % 10)]
      else parseUnsignedFixed [Nat.digitChar (n / 100), '.',
        Nat.digitChar (n / 10 % 10), Nat.digitChar (n % 10)]) = _
    rw [if_neg hd1m, if_neg hd1p]
  rw [hred]
  have htw : List.takeWhile Char.isDigit [Nat.digitChar (n / 100), '.',
      Nat.digitChar (n / 10 % 10), Nat.digitChar (n % 10)] = [Nat.digitChar (n / 100)] := by
    simp [List.takeWhile_cons, hd1dig, hdotdig]
  have hdw : List.dropWhile Char.isDigit [Nat.digitChar (n / 100), '.',
      Nat.digitChar (n / 10 % 10), Nat.digitChar (n % 10)] =
      ['.', Nat.digitChar (n / 10 % 10), Nat.digitChar (n % 10)] := by
    simp [List.dropWhile_cons, hd1dig, hdotdig]
  have hip : digitsValAux 0 [Nat.digitChar (n / 100)] = some (n / 100) := by
    simp [digitsValAux, hd1val]
  have hfp : digitsValAux 0 [Nat.digitChar (n / 10 % 10), Nat.digitChar (n % 10)] =
      some ((0 * 10 + n / 10 % 10) * 10 + n % 10) := by
    simp [digitsValAux, hd2val, hd3val]
  unfold parseUnsignedFixed
  simp only [htw, hdw]
  simp only [if_true]
  rw [if_pos (by simp [hd2dig, hd3dig])]
  rw [hip, hfp]
  show some (((n / 100 : ℕ) : ℚ) +
      (((0 * 10 + n / 10 % 10) * 10 + n % 10 : ℕ) : ℚ) / (10 : ℚ) ^ (2 : ℕ)) =
    some (((round2 q : ℤ) : ℚ) / 100)
  have hcastn : ((round2 q : ℤ) : ℚ) = (n : ℚ) := by
    have h2 := Int.toNat_of_nonneg hr0
    rw [hn]
    exact_mod_cast h2.symm
  rw [hcastn]
  have hdm : 100 * (n / 100) + n % 100 = n := Nat.div_add_mod n 100
  have hcast2 : 100 * ((n / 100 : ℕ) : ℚ) + ((n % 100 : ℕ) : ℚ) = (n : ℚ) := by
    exact_mod_cast congrArg Nat.cast hdm
  have hmodq : (((0 * 10 + n / 10 % 10) * 10 + n % 10 : ℕ) : ℚ) = ((n % 100 : ℕ) : ℚ) := by
    have h3 : (0 * 10 + n / 10 % 10) * 10 + n % 10 = n % 100 := by omega
    exact_mod_cast congrArg Nat.cast h3
  rw [hmodq]
  congr 1
  have h102 : ((10 : ℚ)) ^ (2 : ℕ) = 100 := by norm_num
  rw [h102]
  field_simp
  linarith [hcast2]

end PdbAM

namespace PdbAM

/-- Characters before column 61 are preserved by the atom-record rewrite. -/
theorem modifyAtomLine_getElem_lt (ln : List Char) (q : ℚ) (hlen : 66 ≤ ln.length)
    (k : Nat) (hk : k < 60) : (modifyAtomLine ln q)[k]? = ln[k]? := by
  unfold modifyAtomLine
  rw [List.append_assoc]
  have hA : (ln.take 60).length = 60 := by rw [List.length_take]; omega
  rw [List.getElem?_append, hA, if_pos hk, List.getElem?_take]
  simp [hk]

/-- Characters after column 66 are preserved by the atom-record rewrite. -/
theorem modifyAtomLine_getElem_ge (ln : List Char) (q : ℚ) (hlen : 66 ≤ ln.length)
    (hsf : (scoreField q).length = 6) (k : Nat) (hk : 66 ≤ k) :
    (modifyAtomLine ln q)[k]? = ln[k]? := by
  unfold modifyAtomLine
  rw [List.append_assoc]
  have hA : (ln.take 60).length = 60 := by rw [List.length_take]; omega
  rw [List.getElem?_append, hA, if_neg (by omega)]
  rw [List.getElem?_append, hsf, if_neg (by omega)]
  rw [List.getElem?_drop]
  congr 1
  omega

/-- Columns 61-66 of the rewritten record hold exactly the score field. -/
theorem modifyAtomLine_slice66 (ln : List Char) (q : ℚ) (hlen : 66 ≤ ln.length)
    (hsf : (scoreField q).length = 6) :
    sliceCols (modifyAtomLine ln q) 60 66 = scoreField q := by
  unfold modifyAtomLine sliceCols
  rw [List.append_assoc]
  have hA : (ln.take 60).length = 60 := by rw [List.length_take]; omega
  have h1 : ((ln.take 60) ++ (scoreField q ++ ln.drop 66)).drop 60 =
      scoreField q ++ ln.drop 66 := by
    have h2 := List.drop_left (ln.take 60) (scoreField q ++ ln.drop 66)
    rw [hA] at h2
    exact h2
  rw [h1]
  have h3 := List.take_left (scoreField q) (ln.drop 66)
  rw [hsf] at h3
  exact h3

/-- The first sixty characters of the rewritten record are those of the
original. -/
theorem modifyAtomLine_take60 (ln : List Char) (q : ℚ) (hlen : 66 ≤ ln.length) :
    (modifyAtomLine ln q).take 60 = ln.take 60 := by
  unfold modifyAtomLine
  rw [List.append_assoc]
  have hA : (ln.take 60).length = 60 := by rw [List.length_take]; omega
  have h1 := List.take_left (ln.take 60) (scoreField q ++ ln.drop 66)
  rw [hA] at h1
  exact h1

/-- A slice that ends at or before column 60 only depends on the first
sixty characters. -/
theorem sliceCols_of_take60 (l : List Char) (a b : Nat) (hb : b ≤ 60) :
    sliceCols l a b = ((l.take 60).drop a).take (b - a) := by
  unfold sliceCols
  rw [List.drop_take, List.take_take]
  congr 1
  omega

end PdbAM

/-- C8: rewriting an atom record with a unit-interval score puts the
right-justified 2-decimal rendering of the score in columns 61-66
(1-based), preserves every character outside columns 61-66 byte-for-byte
(in particular the residue number in columns 23-26), and re-reading
columns 23-26 and 61-66 of the rewritten record reproduces the original
residue-number parse and the written score to 2 decimals. -/
theorem atom_line_rewrite_roundtrip (ln : List Char) (q : ℚ)
    (hlen : 66 ≤ ln.length) (h0 : 0 ≤ q) (h1 : q ≤ 1) :
    (∀ k, k < 60 → (PdbAM.modifyAtomLine ln q)[k]? = ln[k]?) ∧
    (∀ k, 66 ≤ k → (PdbAM.modifyAtomLine ln q)[k]? = ln[k]?) ∧
    PdbAM.sliceCols (PdbAM.modifyAtomLine ln q) 60 66 =
      PdbAM.rightJustify6 (PdbAM.fmt2 q) ∧
    PdbAM.pythonInt (PdbAM.sliceCols (PdbAM.modifyAtomLine ln q) 22 26) =
      PdbAM.pythonInt (PdbAM.sliceCols ln 22 26) ∧
    PdbAM.parseFixedFloat (PdbAM.sliceCols (PdbAM.modifyAtomLine ln q) 60 66) =
      some (((PdbAM.round2 q : ℤ) : ℚ) / 100) := by
  have hsf : (PdbAM.scoreField q).length = 6 := PdbAM.scoreField_length_unit h0 h1
  have hslice : PdbAM.sliceCols (PdbAM.modifyAtomLine ln q) 60 66 = PdbAM.scoreField q :=
    PdbAM.modifyAtomLine_slice66 ln q hlen hsf
  refine ⟨?_, ?_, ?_, ?_, ?_⟩
  · intro k hk
    exact PdbAM.modifyAtomLine_getElem_lt ln q hlen k hk
  · intro k hk
    exact PdbAM.modifyAtomLine_getElem_ge ln q hlen hsf k hk
  · exact hslice
  · rw [PdbAM.sliceCols_of_take60 (PdbAM.modifyAtomLine ln q) 22 26 (by omega),
      PdbAM.sliceCols_of_take60 ln 22 26 (by omega),
      PdbAM.modifyAtomLine_take60 ln q hlen]
  · rw [hslice]
    exact PdbAM.parse_scoreField h0 h1

/-- C8 witness: a 78-character ATOM ln rewritten with the score 1/2;
the hypotheses of `atom_line_rewrite_roundtrip` hold. -/
theorem atom_line_rewrite_roundtrip_witness :
    (∀ k, k < 60 →
      (PdbAM.modifyAtomLine ("ATOM      1  N   MET A   1      27.340  24.430   2.614  1.00  0.00           N").toList (1 / 2))[k]? =
      ("ATOM      1  N   MET A   1      27.340  24.430   2.614  1.00  0.00           N").toList[k]?) ∧
    (∀ k, 66 ≤ k →
      (PdbAM.modifyAtomLine ("ATOM      1  N   MET A   1      27.340  24.430   2.614  1.00  0.00           N").toList (1 / 2))[k]? =
      ("ATOM      1  N   MET A   1      27.340  24.430   2.614  1.00  0.00           N").toList[k]?) ∧
    PdbAM.sliceCols (PdbAM.modifyAtomLine ("ATOM      1  N   MET A   1      27.340  24.430   2.614  1.00  0.00           N").toList (1 / 2)) 60 66 =
      PdbAM.rightJustify6 (PdbAM.fmt2 (1 / 2)) ∧
    PdbAM.pythonInt (PdbAM.sliceCols (PdbAM.modifyAtomLine ("ATOM      1  N   MET A   1      27.340  24.430   2.614  1.00  0.00           N").toList (1 / 2)) 22 26) =
      PdbAM.pythonInt (PdbAM.sliceCols ("ATOM      1  N   MET A   1      27.340  24.430   2.614  1.00  0.00           N").toList 22 26) ∧
    PdbAM.parseFixedFloat (PdbAM.sliceCols (PdbAM.modifyAtomLine ("ATOM      1  N   MET A   1      27.340  24.430   2.614  1.00  0.00           N").toList (1 / 2)) 60 66) =
      some (((PdbAM.round2 (1 / 2) : ℤ) : ℚ) / 100) :=
  atom_line_rewrite_roundtrip
    ("ATOM      1  N   MET A   1      27.340  24.430   2.614  1.00  0.00           N").toList
    (1 / 2) (by decide) (by norm_num) (by norm_num)

/-- C10 counterexample: an ATOM line whose residue-number field parses to
-999 with a one-entry score array.  The parsed number is below the array
length, so the claim classifies the line as "columns 61-66 replaced", but
the rewrite raises numpy `IndexError` (result `none`): no line is
emitted at all. -/
theorem pdb_rewrite_negative_residue_crash :
    PdbAM.startsWith "ATOM".toList ("ATOM      1  N   MET A-999      27.340  24.430   2.614  1.00  0.00           N").toList = true ∧
    PdbAM.pythonInt (PdbAM.sliceCols ("ATOM      1  N   MET A-999      27.340  24.430   2.614  1.00  0.00           N").toList 22 26) = some (-999) ∧
    ((-999 : Int) < ([some (1 / 2)] : List (Option ℚ)).length) ∧
    PdbAM.modify_pdb_line [some (1 / 2)] ("ATOM      1  N   MET A-999      27.340  24.430   2.614  1.00  0.00           N").toList = none :=
  ⟨by decide, by decide, by decide, by decide⟩

/-- C10 (amended): lines not starting with ATOM or HETATM are emitted
unchanged; ATOM/HETATM lines whose parsed residue number is at least the
score-array length, or whose (possibly negative-index, counting from the
end) array entry is NaN, are emitted unchanged; ATOM/HETATM lines with a
residue number below the length and a non-NaN entry get columns 61-66
replaced; a residue number below minus the array length raises
`IndexError` and nothing is emitted. -/
theorem pdb_rewrite_line_frame (scores : List (Option ℚ)) (ln : List Char) :
    (PdbAM.startsWith "ATOM".toList ln = false →
     PdbAM.startsWith "HETATM".toList ln = false →
      PdbAM.modify_pdb_line scores ln = some ln) ∧
    (∀ rn : Int,
      (PdbAM.startsWith "ATOM".toList ln || PdbAM.startsWith "HETATM".toList ln) = true →
      PdbAM.pythonInt (PdbAM.sliceCols ln 22 26) = some rn →
      ((scores.length : Int) ≤ rn → PdbAM.modify_pdb_line scores ln = some ln) ∧
      (rn < (scores.length : Int) → PdbAM.numpyGet scores rn = some none →
        PdbAM.modify_pdb_line scores ln = some ln) ∧
      (∀ q : ℚ, rn < (scores.length : Int) → PdbAM.numpyGet scores rn = some (some q) →
        PdbAM.modify_pdb_line scores ln = some (PdbAM.modifyAtomLine ln q)) ∧
      (rn + (scores.length : Int) < 0 → PdbAM.modify_pdb_line scores ln = none)) := by
  constructor
  · intro h1 h2
    unfold PdbAM.modify_pdb_line
    rw [h1, h2]
    simp
  · intro rn hat hparse
    refine ⟨?_, ?_, ?_, ?_⟩
    · intro hge
      unfold PdbAM.modify_pdb_line
      rw [hat, if_pos rfl, hparse]
      show (if rn < (scores.length : Int) then
          match PdbAM.numpyGet scores rn with
          | none => none
          | some none => some ln
          | some (some q) => some (PdbAM.modifyAtomLine ln q)
        else some ln) = some ln
      rw [if_neg (not_lt.mpr hge)]
    · intro hlt hng
      unfold PdbAM.modify_pdb_line
      rw [hat, if_pos rfl, hparse]
      show (if rn < (scores.length : Int) then
          match PdbAM.numpyGet scores rn with
          | none => none
          | some none => some ln
          | some (some q) => some (PdbAM.modifyAtomLine ln q)
        else some ln) = some ln
      rw [if_pos hlt, hng]
    · intro q hlt hng
      unfold PdbAM.modify_pdb_line
      rw [hat, if_pos rfl, hparse]
      show (if rn < (scores.length : Int) then
          match PdbAM.numpyGet scores rn with
          | none => none
          | some none => some ln
          | some (some q) => some (PdbAM.modifyAtomLine ln q)
        else some ln) = (some (PdbAM.modifyAtomLine ln q))
      rw [if_pos hlt, hng]
    · intro hneg
      have hlt : rn < (scores.length : Int) := by omega
      have hng : PdbAM.numpyGet scores rn = none := by
        unfold PdbAM.numpyGet
        rw [if_neg (by omega), if_neg (by omega)]
      unfold PdbAM.modify_pdb_line
      rw [hat, if_pos rfl, hparse]
      show (if rn < (scores.length : Int) then
          match PdbAM.numpyGet scores rn with
          | none => none
          | some none => some ln
          | some (some q) => some (PdbAM.modifyAtomLine ln q)
        else some ln) = none
      rw [if_pos hlt, hng]

/-- C10 witness: a score array of length one and an ATOM line with
residue number 0; the non-NaN-entry branch of `pdb_rewrite_line_frame`
rewrites columns 61-66. -/
theorem pdb_rewrite_line_frame_witness :
    PdbAM.modify_pdb_line [some (1 / 2)] ("ATOM      1  N   MET A   0      27.340  24.430   2.614  1.00  0.00           N").toList =
      some (PdbAM.modifyAtomLine ("ATOM      1  N   MET A   0      27.340  24.430   2.614  1.00  0.00           N").toList (1 / 2)) :=
  ((pdb_rewrite_line_frame [some (1 / 2)]
      ("ATOM      1  N   MET A   0      27.340  24.430   2.614  1.00  0.00           N").toList).2
    0 (by decide) (by decide)).2.2.1 (1 / 2) (by decide) rfl
